import Mathlib

/-!
# arg-parse: the tokenizing parser and the `--build-arg` renderer

A shallow embedding of `main.go`: `parse`, `scanKey`, `scanValue`,
`dockerBuildArgStringify` and the parse / render / substitute pipeline of `main`.

Modelling conventions.

* A Go `string` is taken to hold valid UTF-8 and is represented by its sequence of
  code points (`Str = List Char`).  `bufio.Scanner` with `bufio.ScanRunes` then
  delivers exactly one `Char` per successful `Scan()`, and `scanner.Text()` is the
  one-character string of that `Char`.
* The scanner is represented by its unread input; every scanning function returns
  the unread input that is left together with its result.
* A Go `error` built by `errors.New` / `fmt.Errorf` is represented by its message.
* A Go `map[string]string` is represented by an association list without
  duplicate keys (`StrMap`); `m[k] = v` is `StrMap.set`.  The order of the list is
  the order of first insertion and carries no meaning for the Go program; functions
  that range over a map receive the entries in the order of iteration.
-/

namespace ArgParse

/-- A Go string of valid UTF-8, as the sequence of its code points. -/
abbrev Str := List Char

/-- A Go `map[string]string`: an association list, one entry per key. -/
abbrev StrMap := List (Str × Str)

/-- Map read `m[k]` (with presence information). -/
def StrMap.get? : StrMap → Str → Option Str
  | [], _ => none
  | (k', v') :: m, k => if k' = k then some v' else StrMap.get? m k

/-- Map assignment `m[k] = v`: overwrite the entry of `k`, or add one. -/
def StrMap.set : StrMap → Str → Str → StrMap
  | [], k, v => [(k, v)]
  | (k', v') :: m, k, v => if k' = k then (k, v) :: m else (k', v') :: StrMap.set m k v

/-- Go `unicode.IsSpace`: the Latin-1 white space characters by a switch, the other
characters by the Unicode `White_Space` table. -/
def isSpace (c : Char) : Bool :=
  let r := c.toNat
  if r ≤ 0xFF then
    r == 0x09 || r == 0x0A || r == 0x0B || r == 0x0C || r == 0x0D || r == 0x20
      || r == 0x85 || r == 0xA0
  else
    r == 0x1680 || (0x2000 ≤ r && r ≤ 0x200A) || r == 0x2028 || r == 0x2029
      || r == 0x202F || r == 0x205F || r == 0x3000

/-- Go `strings.TrimSpace`: drop the leading, then the trailing white space. -/
def trimSpace (s : Str) : Str :=
  ((s.dropWhile isSpace).reverse.dropWhile isSpace).reverse

/-- The single quote that opens and closes a value. -/
def quote : Char := Char.ofNat 39

/-- The double quote that the renderer escapes. -/
def dquote : Char := Char.ofNat 34

/-- The backslash the renderer puts before a double quote. -/
def backslash : Char := Char.ofNat 92

/-- Message of `scanKey`, line 114. -/
def errEmptyKeyAtEq : Str := "invalid format, reached '=' with key length of 0".toList

/-- Message of `scanKey`, line 124. -/
def errEmptyKey : Str := "key length of 0".toList

/-- Message of `scanKey`, line 126: `unexpcted EOF, no value for key '%s'`. -/
def errUnterminatedKey (keyName : Str) : Str :=
  "unexpcted EOF, no value for key '".toList ++ keyName ++ [quote]

/-- Message of `scanValue`, line 132. -/
def errExpectedOpenQuoteEOF : Str :=
  "want: single quote (') opening character, got: EOF".toList

/-- Message of `scanValue`, line 135: `... opening character, got: '%s'`. -/
def errExpectedOpenQuote (got : Char) : Str :=
  "want: single quote (') opening character, got: '".toList ++ [got] ++ [quote]

/-- Message of `scanValue`, line 145. -/
def errUnterminatedValue : Str :=
  "want: single quote (') closing character, got: EOF".toList

/-- The loop of `scanKey` (lines 112-126) with `keyName` accumulated so far, over
the unread input.  Returns the key or the error, and the input left unread. -/
def scanKeyLoop (keyName : Str) : Str → Except Str Str × Str
  | [] =>
    if keyName.length = 0 then (.error errEmptyKey, [])
    else (.error (errUnterminatedKey keyName), [])
  | c :: rest =>
    if c = '=' ∧ keyName.length = 0 then (.error errEmptyKeyAtEq, rest)
    else if c = '=' then (.ok (trimSpace keyName), rest)
    else scanKeyLoop (keyName ++ [c]) rest

/-- Go `scanKey`: `cur` is `scanner.Text()` on entry (the character `parse` has
just scanned), `rest` the unread input. -/
def scanKey (cur : Char) (rest : Str) : Except Str Str × Str :=
  scanKeyLoop [cur] rest

/-- The second loop of `scanValue` (lines 138-145). -/
def scanValueLoop (valueName : Str) : Str → Except Str Str × Str
  | [] => (.error errUnterminatedValue, [])
  | c :: rest =>
    if c = quote then (.ok valueName, rest)
    else scanValueLoop (valueName ++ [c]) rest

/-- Go `scanValue`. -/
def scanValue : Str → Except Str Str × Str
  | [] => (.error errExpectedOpenQuoteEOF, [])
  | c :: rest =>
    if c ≠ quote then (.error (errExpectedOpenQuote c), rest)
    else scanValueLoop [] rest

/-- The loop of `parse` (lines 93-107) with the map built so far.  Each turn of the
loop consumes at least one character; `fuel` bounds the number of turns and `none`
is returned only when it runs out (which `parse` never lets happen). -/
def parseLoop : Nat → StrMap → Str → Option (StrMap × Option Str)
  | _, m, [] => some (m, none)
  | 0, _, _ :: _ => none
  | fuel + 1, m, c :: rest =>
    match scanKey c rest with
    | (.error err, _) => some (m, some err)
    | (.ok keyName, rest1) =>
      match scanValue rest1 with
      | (.error err, _) => some (m, some err)
      | (.ok value, rest2) => parseLoop fuel (StrMap.set m keyName value) rest2

/-- Go `parse`: the map and the error (`none` for `nil`). -/
def parse (s : Str) : Option (StrMap × Option Str) :=
  parseLoop s.length [] s

/-! ## The renderer and the pipeline of `main` -/

/-- Go `strings.Join(elems, sep)`. -/
def joinWith (sep : Str) : List Str → Str
  | [] => []
  | [x] => x
  | x :: y :: rest => x ++ sep ++ joinWith sep (y :: rest)

/-- The scan of `strings.ReplaceAll` for a non-empty `old`, left to right: `skip`
counts the characters of an occurrence of `old` just replaced that are still to be
passed over. -/
def replaceFrom (old new : Str) : Nat → Str → Str
  | _, [] => []
  | skip + 1, _ :: s => replaceFrom old new skip s
  | 0, c :: s =>
    if old.isPrefixOf (c :: s) then new ++ replaceFrom old new (old.length - 1) s
    else c :: replaceFrom old new 0 s

/-- Go `strings.ReplaceAll(s, old, new)`: the non-overlapping occurrences of `old`,
found from the left, are replaced by `new`; an empty `old` matches before every
character and at the end. -/
def replaceAll (s old new : Str) : Str :=
  if old = [] then new ++ s.flatMap (fun c => c :: new)
  else replaceFrom old new 0 s

/-- The fragment of line 83: `fmt.Sprintf("--build-arg=\"%s=%s\"", key, value)`. -/
def sprintfBuildArg (key value : Str) : Str :=
  "--build-arg=".toList ++ dquote :: key ++ '=' :: value ++ [dquote]

/-- Go `dockerBuildArgStringify`; `entries` are the entries of the map `m` in the
order in which `range m` delivers them, so `len(m)` is `entries.length`.  The slice
starts with `len(m)` empty strings and the fragments are appended to it. -/
def dockerBuildArgStringify (entries : List (Str × Str)) : Str :=
  let args : List Str := List.replicate entries.length []
  let args := entries.foldl
    (fun args e =>
      args ++ [sprintfBuildArg e.1 (replaceAll e.2 [dquote] [backslash, dquote])])
    args
  trimSpace (joinWith [' '] args)

/-- Lines 69-75 of `main`: parse the argument text, stop on a parse error (the
`panic`), otherwise replace the placeholder in the command string by the rendered
mapping.  `order` is the order in which `range` iterates over a map. -/
def run (order : StrMap → List (Str × Str)) (commandStr placeholder buildArgs : Str) :
    Option (Except Str Str) :=
  match parse buildArgs with
  | none => none
  | some (_, some parseError) => some (.error parseError)
  | some (m, none) =>
    some (.ok (replaceAll commandStr placeholder (dockerBuildArgStringify (order m))))

/-- The escaping the spec describes: a backslash before every double quote, every
other character unchanged. -/
def escapeQuotes (v : Str) : Str :=
  v.flatMap (fun c => if c = dquote then [backslash, dquote] else [c])

/-- The fragment `--build-arg="k=v"` of one entry as the spec writes it, `v` being
the value with its double quotes escaped. -/
def buildArg (e : Str × Str) : Str :=
  "--build-arg=\"".toList ++ e.1 ++ "=".toList ++ escapeQuotes e.2 ++ "\"".toList

/-- The reader of one fragment in the trivial splitter of the round-trip property,
written from the spec's words (the splitter is not part of the program): after
`--build-arg="`, the key is the text up to the first `=`, the value the text from
there to the closing double quote.  Returns the pair and the text after the
fragment. -/
def specReadBuildArg (s : Str) : Option ((Str × Str) × Str) :=
  if "--build-arg=\"".toList.isPrefixOf s then
    let s1 := s.drop "--build-arg=\"".toList.length
    match s1.dropWhile (fun c => c != '=') with
    | [] => none
    | _ :: s2 =>
      match s2.dropWhile (fun c => c != dquote) with
      | [] => none
      | _ :: s3 =>
        some ((s1.takeWhile (fun c => c != '='), s2.takeWhile (fun c => c != dquote)), s3)
  else none

/-- The trivial splitter of the round-trip property, written from the spec's words:
it reads the fragments `--build-arg="k=v"`, one space between two of them, and
returns the pairs in the order read, or `none` when the text is not of this form.
`fuel` bounds the number of fragments. -/
def specSplitLoop : Nat → Str → Option (List (Str × Str))
  | _, [] => some []
  | 0, _ :: _ => none
  | fuel + 1, c :: s =>
    match specReadBuildArg (c :: s) with
    | none => none
    | some (kv, []) => some [kv]
    | some (kv, d :: rest) =>
      if d = ' ' ∧ rest ≠ [] then (specSplitLoop fuel rest).map (fun kvs => kv :: kvs)
      else none

/-- The trivial splitter on a rendered options string. -/
def specSplitBuildArgs (s : Str) : Option (List (Str × Str)) :=
  specSplitLoop s.length s

/-! ## The inputs of the claims -/

/-- A key as the claims take it: non-empty, without `=`, and neither its first nor
its last character is white space. -/
def ValidKey (k : Str) : Prop :=
  k ≠ [] ∧ '=' ∉ k ∧ k.head?.all (fun c => !isSpace c) = true
    ∧ k.getLast?.all (fun c => !isSpace c) = true

instance (k : Str) : Decidable (ValidKey k) := by
  unfold ValidKey; infer_instance

/-- The text of one `key='value'` token. -/
def token (p : Str × Str) : Str :=
  p.1 ++ '=' :: quote :: p.2 ++ [quote]

/-- The argument text `k_1='v_1' k_2='v_2' ... k_n='v_n'`, tokens separated by one
space. -/
def argText (ps : List (Str × Str)) : Str :=
  [' '].intercalate (ps.map token)

/-- Tokens, each after white space of its own. -/
def spacedText : List (Str × Str × Str) → Str
  | [] => []
  | (w, p) :: ts => w ++ token p ++ spacedText ts

/-- The map after the assignments `m[k] = v` of `ps`, in this order. -/
def assignAll (m : StrMap) (ps : List (Str × Str)) : StrMap :=
  ps.foldl (fun acc p => StrMap.set acc p.1 p.2) m

/-- The segments of `s` between the occurrences of `old` that `strings.ReplaceAll`
replaces. -/
def IsSegmentation (old : Str) (segs : List Str) (s : Str) : Prop :=
  joinWith old segs = s
    ∧ (∀ seg ∈ segs, ¬ old <:+: seg)
    ∧ (∀ seg ∈ segs.dropLast, ¬ old <:+: seg ++ old.dropLast)

/-- The errors of `scanKey` and `scanValue` other than the two for a key of length
0: UnterminatedKey with a non-empty key fragment, ExpectedOpenQuote at the end of
the input or at a character that is not the single quote, UnterminatedValue. -/
def IsScanFailure (e : Str) : Prop :=
  (∃ frag : Str, frag ≠ [] ∧ e = errUnterminatedKey frag)
    ∨ e = errExpectedOpenQuoteEOF
    ∨ (∃ c : Char, c ≠ quote ∧ e = errExpectedOpenQuote c)
    ∨ e = errUnterminatedValue

/-! ## The scanner -/

theorem scanKeyLoop_eq (k r : Str) (hk : '=' ∉ k) :
    ∀ acc : Str, acc ≠ [] →
      scanKeyLoop acc (k ++ '=' :: r) = (.ok (trimSpace (acc ++ k)), r) := by
  induction k with
  | nil =>
    intro acc hacc
    have : acc.length ≠ 0 := by simpa using hacc
    simp [scanKeyLoop, this]
  | cons c k ih =>
    intro acc hacc
    have hc : c ≠ '=' := fun h => hk (by simp [h])
    have hk2 : '=' ∉ k := fun h => hk (by simp [h])
    simp only [List.cons_append, scanKeyLoop, hc, false_and, if_false]
    refine (ih hk2 (acc ++ [c]) (by simp)).trans ?_
    simp

theorem scanKeyLoop_eof (k : Str) (hk : '=' ∉ k) :
    ∀ acc : Str, acc ≠ [] →
      scanKeyLoop acc k = (.error (errUnterminatedKey (acc ++ k)), []) := by
  induction k with
  | nil =>
    intro acc hacc
    have : acc.length ≠ 0 := by simpa using hacc
    simp [scanKeyLoop, this]
  | cons c k ih =>
    intro acc hacc
    have hc : c ≠ '=' := fun h => hk (by simp [h])
    have hk2 : '=' ∉ k := fun h => hk (by simp [h])
    simp only [scanKeyLoop, hc, false_and, if_false]
    rw [ih hk2 (acc ++ [c]) (by simp)]
    simp

theorem scanValueLoop_closed (v r : Str) (hv : quote ∉ v) :
    ∀ acc : Str, scanValueLoop acc (v ++ quote :: r) = (.ok (acc ++ v), r) := by
  induction v with
  | nil => intro acc; simp [scanValueLoop]
  | cons c v ih =>
    intro acc
    have hc : c ≠ quote := fun h => hv (by simp [h])
    have hv2 : quote ∉ v := fun h => hv (by simp [h])
    simp only [List.cons_append, scanValueLoop, hc, if_false]
    refine (ih hv2 (acc ++ [c])).trans ?_
    simp

theorem scanValueLoop_eof (v : Str) (hv : quote ∉ v) :
    ∀ acc : Str, scanValueLoop acc v = (.error errUnterminatedValue, []) := by
  induction v with
  | nil => intro acc; simp [scanValueLoop]
  | cons c v ih =>
    intro acc
    have hc : c ≠ quote := fun h => hv (by simp [h])
    have hv2 : quote ∉ v := fun h => hv (by simp [h])
    simp only [scanValueLoop, hc, if_false]
    exact ih hv2 (acc ++ [c])

theorem scanValue_quoted (v r : Str) (hv : quote ∉ v) :
    scanValue (quote :: v ++ quote :: r) = (.ok v, r) := by
  simp [scanValue, scanValueLoop_closed v r hv]

/-! The scanner only moves forward, and a scan that ends before the end of the
input does not look at what follows. -/

theorem scanKeyLoop_length (s : Str) :
    ∀ acc : Str, (scanKeyLoop acc s).2.length ≤ s.length := by
  induction s with
  | nil => intro acc; simp only [scanKeyLoop]; split <;> simp
  | cons c s ih =>
    intro acc
    simp only [scanKeyLoop]
    split
    · simp
    · split
      · simp
      · exact Nat.le_succ_of_le (ih _)

theorem scanValueLoop_length (s : Str) :
    ∀ acc : Str, (scanValueLoop acc s).2.length ≤ s.length := by
  induction s with
  | nil => intro acc; simp [scanValueLoop]
  | cons c s ih =>
    intro acc
    simp only [scanValueLoop]
    split
    · simp
    · exact Nat.le_succ_of_le (ih _)

theorem scanValue_length (s : Str) : (scanValue s).2.length ≤ s.length := by
  cases s with
  | nil => simp [scanValue]
  | cons c s =>
    simp only [scanValue]
    split
    · simp
    · exact Nat.le_succ_of_le (scanValueLoop_length s [])

theorem scanKeyLoop_append (s t : Str) :
    ∀ (acc key r : Str), scanKeyLoop acc s = (.ok key, r) →
      scanKeyLoop acc (s ++ t) = (.ok key, r ++ t) := by
  induction s with
  | nil =>
    intro acc key r h
    simp only [scanKeyLoop] at h
    split at h <;> simp at h
  | cons c s ih =>
    intro acc key r h
    simp only [scanKeyLoop, List.cons_append] at h ⊢
    split
    · rename_i h1; simp [h1] at h
    · rename_i h1
      rw [if_neg h1] at h
      split
      · rename_i h2
        rw [if_pos h2] at h
        simp only [Prod.mk.injEq, Except.ok.injEq] at h
        simp [h.1, h.2]
      · rename_i h2
        rw [if_neg h2] at h
        exact ih _ _ _ h

theorem scanValueLoop_append (s t : Str) :
    ∀ (acc v r : Str), scanValueLoop acc s = (.ok v, r) →
      scanValueLoop acc (s ++ t) = (.ok v, r ++ t) := by
  induction s with
  | nil => intro acc v r h; simp [scanValueLoop] at h
  | cons c s ih =>
    intro acc v r h
    simp only [scanValueLoop, List.cons_append] at h ⊢
    split
    · rename_i h1
      rw [if_pos h1] at h
      simp only [Prod.mk.injEq, Except.ok.injEq] at h
      simp [h.1, h.2]
    · rename_i h1
      rw [if_neg h1] at h
      exact ih _ _ _ h

theorem scanValue_append (s t v r : Str) (h : scanValue s = (.ok v, r)) :
    scanValue (s ++ t) = (.ok v, r ++ t) := by
  cases s with
  | nil => simp [scanValue] at h
  | cons c s =>
    simp only [scanValue, List.cons_append] at h ⊢
    split
    · rename_i h1; simp [h1] at h
    · rename_i h1
      rw [if_neg h1] at h
      exact scanValueLoop_append s t _ _ _ h

/-! ## White space -/

theorem dropWhile_of_head (p : Char → Bool) (l : Str)
    (h : l.head?.all (fun c => !p c) = true) : l.dropWhile p = l := by
  cases l with
  | nil => rfl
  | cons c l =>
    have hc : p c = false := by simpa using h
    simp [List.dropWhile, hc]

theorem trimSpace_of_ends (k : Str) (hhead : k.head?.all (fun c => !isSpace c) = true)
    (hlast : k.getLast?.all (fun c => !isSpace c) = true) : trimSpace k = k := by
  unfold trimSpace
  rw [dropWhile_of_head isSpace k hhead, dropWhile_of_head isSpace k.reverse
    (by rw [List.head?_reverse]; exact hlast), List.reverse_reverse]

theorem trimSpace_of_validKey (k : Str) (hk : ValidKey k) : trimSpace k = k :=
  trimSpace_of_ends k hk.2.2.1 hk.2.2.2

theorem trimSpace_space_append (w k : Str) (hw : ∀ c ∈ w, isSpace c = true) :
    trimSpace (w ++ k) = trimSpace k := by
  induction w with
  | nil => rfl
  | cons c w ih =>
    have hc : isSpace c = true := hw c (by simp)
    have ih2 := ih (fun d hd => hw d (by simp [hd]))
    unfold trimSpace at ih2 ⊢
    simpa [List.dropWhile, hc] using ih2

theorem not_mem_of_all_space (w : Str) (c : Char) (hc : isSpace c = false)
    (hw : ∀ d ∈ w, isSpace d = true) : c ∉ w := by
  intro h
  rw [hw c h] at hc
  exact Bool.noConfusion hc

/-! ## The loop of `parse` -/

theorem parseLoop_succ_cons (fuel : Nat) (m : StrMap) (c : Char) (rest : Str) :
    parseLoop (fuel + 1) m (c :: rest) =
      match scanKey c rest with
      | (.error err, _) => some (m, some err)
      | (.ok keyName, rest1) =>
        match scanValue rest1 with
        | (.error err, _) => some (m, some err)
        | (.ok value, rest2) => parseLoop fuel (StrMap.set m keyName value) rest2 := rfl

theorem scanKey_length (c : Char) (rest : Str) :
    (scanKey c rest).2.length ≤ rest.length :=
  scanKeyLoop_length rest [c]

theorem scanKey_append (c : Char) (rest t key r : Str)
    (h : scanKey c rest = (.ok key, r)) : scanKey c (rest ++ t) = (.ok key, r ++ t) :=
  scanKeyLoop_append rest t [c] key r h

theorem parseLoop_fuel (f1 : Nat) :
    ∀ (f2 : Nat) (m : StrMap) (s : Str), s.length ≤ f1 → s.length ≤ f2 →
      parseLoop f1 m s = parseLoop f2 m s := by
  induction f1 with
  | zero =>
    intro f2 m s h1 _
    have : s = [] := List.eq_nil_of_length_eq_zero (Nat.le_zero.mp h1)
    subst this
    cases f2 <;> simp [parseLoop]
  | succ f1 ih =>
    intro f2 m s h1 h2
    cases s with
    | nil => cases f2 <;> simp [parseLoop]
    | cons c rest =>
      cases f2 with
      | zero => simp at h2
      | succ f2 =>
        simp only [List.length_cons, Nat.add_le_add_iff_right] at h1 h2
        rw [parseLoop_succ_cons, parseLoop_succ_cons]
        have hk := scanKey_length c rest
        rcases hsk : scanKey c rest with ⟨_ | keyName, rest1⟩
        · rfl
        · rw [hsk] at hk
          have hv := scanValue_length rest1
          simp only []
          rcases hsv : scanValue rest1 with ⟨_ | value, rest2⟩
          · rfl
          · rw [hsv] at hv
            simp only [] at hk hv ⊢
            exact ih f2 _ rest2 (by omega) (by omega)

/-- The fuel `parse` gives its loop never runs out: the loop returns a result. -/
theorem parseLoop_isSome (f : Nat) :
    ∀ (m : StrMap) (s : Str), s.length ≤ f → (parseLoop f m s).isSome = true := by
  induction f with
  | zero =>
    intro m s h
    have : s = [] := List.eq_nil_of_length_eq_zero (Nat.le_zero.mp h)
    subst this
    simp [parseLoop]
  | succ f ih =>
    intro m s h
    cases s with
    | nil => simp [parseLoop]
    | cons c rest =>
      simp only [List.length_cons, Nat.add_le_add_iff_right] at h
      rw [parseLoop_succ_cons]
      have hk := scanKey_length c rest
      rcases hsk : scanKey c rest with ⟨_ | keyName, rest1⟩
      · rfl
      · rw [hsk] at hk
        have hv := scanValue_length rest1
        simp only []
        rcases hsv : scanValue rest1 with ⟨_ | value, rest2⟩
        · rfl
        · rw [hsv] at hv
          simp only [] at hk hv ⊢
          exact ih _ rest2 (by omega)

/-- One key of the input: a non-empty `k` without `=`, then `=`. -/
theorem scanKey_eq (c : Char) (x r : Str) (hk : '=' ∉ c :: x) :
    scanKey c (x ++ '=' :: r) = (.ok (trimSpace (c :: x)), r) := by
  have hx : '=' ∉ x := fun h => hk (by simp [h])
  simpa [scanKey] using scanKeyLoop_eq x r hx [c] (by simp)

/-- One turn of the loop of `parse` over white space `w`, a key and a quoted value. -/
theorem parseLoop_token (fuel : Nat) (m : StrMap) (w k v r : Str)
    (hw : ∀ c ∈ w, isSpace c = true) (hk : ValidKey k) (hv : quote ∉ v) :
    parseLoop (fuel + 1) m (w ++ token (k, v) ++ r)
      = parseLoop fuel (StrMap.set m k v) r := by
  have hkey : trimSpace (w ++ k) = k := by
    rw [trimSpace_space_append w k hw, trimSpace_of_validKey k hk]
  have hne : w ++ k ≠ [] := by simp [hk.1]
  have heq : '=' ∉ w ++ k := by
    simp only [List.mem_append, not_or]
    exact ⟨not_mem_of_all_space w '=' (by decide) hw, hk.2.1⟩
  have htxt : w ++ token (k, v) ++ r = (w ++ k) ++ '=' :: (quote :: v ++ quote :: r) := by
    simp [token]
  rw [htxt]
  generalize w ++ k = wk at hkey hne heq
  cases wk with
  | nil => exact absurd rfl hne
  | cons c x =>
    rw [List.cons_append, parseLoop_succ_cons,
      scanKey_eq c x (quote :: v ++ quote :: r) heq]
    simp only []
    rw [scanValue_quoted v r hv, hkey]

/-- A scan that succeeded on `s` proceeds in the same way on `s ++ t` and then goes
on with `t`. -/
theorem parseLoop_append (f : Nat) :
    ∀ (m0 : StrMap) (s : Str) (m : StrMap), parseLoop f m0 s = some (m, none) →
      ∀ (t : Str) (g : Nat), (s ++ t).length ≤ g →
        parseLoop g m0 (s ++ t) = parseLoop g m t := by
  induction f with
  | zero =>
    intro m0 s m h t g _
    cases s with
    | nil =>
      simp only [parseLoop, Option.some.injEq, Prod.mk.injEq, and_true] at h
      simp [h]
    | cons c rest => simp [parseLoop] at h
  | succ f ih =>
    intro m0 s m h t g hg
    cases s with
    | nil =>
      simp only [parseLoop, Option.some.injEq, Prod.mk.injEq, and_true] at h
      simp [h]
    | cons c rest =>
      cases g with
      | zero => simp at hg
      | succ g =>
        simp only [List.cons_append, List.length_cons, Nat.add_le_add_iff_right,
          List.length_append] at hg
        rw [parseLoop_succ_cons] at h
        rw [List.cons_append, parseLoop_succ_cons]
        have hkl := scanKey_length c rest
        rcases hsk : scanKey c rest with ⟨_ | keyName, rest1⟩
        · rw [hsk] at h; simp at h
        · rw [hsk] at h hkl
          rw [scanKey_append c rest t keyName rest1 hsk]
          have hvl := scanValue_length rest1
          simp only [] at h ⊢
          rcases hsv : scanValue rest1 with ⟨_ | value, rest2⟩
          · rw [hsv] at h; simp at h
          · rw [hsv] at h hvl
            simp only [] at h hkl hvl ⊢
            rw [scanValue_append rest1 t value rest2 hsv]
            simp only []
            have hlen : (rest2 ++ t).length ≤ g := by
              simp only [List.length_append]; omega
            rw [ih _ rest2 m h t g hlen]
            exact parseLoop_fuel g (g + 1) m t (by omega) (by omega)

theorem parse_cons (c : Char) (rest : Str) :
    parse (c :: rest) = parseLoop (rest.length + 1) [] (c :: rest) := rfl

theorem parseLoop_spacedText (ts : List (Str × Str × Str)) :
    ∀ (m : StrMap) (fuel : Nat),
      (∀ t ∈ ts, (∀ c ∈ t.1, isSpace c = true) ∧ ValidKey t.2.1 ∧ quote ∉ t.2.2) →
      (spacedText ts).length ≤ fuel →
      parseLoop fuel m (spacedText ts) = some (assignAll m (ts.map Prod.snd), none) := by
  induction ts with
  | nil => intro m fuel _ _; cases fuel <;> simp [spacedText, parseLoop, assignAll]
  | cons t ts ih =>
    intro m fuel h hf
    obtain ⟨w, k, v⟩ := t
    obtain ⟨hw, hk, hv⟩ := h (w, k, v) (by simp)
    cases fuel with
    | zero =>
      exfalso
      simp [spacedText, token] at hf
    | succ fuel =>
      simp only [spacedText] at hf ⊢
      rw [parseLoop_token fuel m w k v (spacedText ts) hw hk hv,
        ih _ fuel (fun t ht => h t (by simp [ht]))
          (by simp only [List.length_append, token, List.length_cons] at hf; omega)]
      simp [assignAll]

theorem argText_cons (p : Str × Str) (ps : List (Str × Str)) :
    argText (p :: ps) = token p ++ spacedText (ps.map (fun q => ([' '], q))) := by
  induction ps generalizing p with
  | nil => simp [argText, spacedText, List.intercalate]
  | cons q qs ih =>
    have h := ih q
    simp only [argText, List.intercalate, List.map_cons, List.intersperse_cons_cons,
      List.flatten_cons] at h ⊢
    rw [h]
    simp [spacedText]

theorem argText_eq_spacedText (p : Str × Str) (ps : List (Str × Str)) :
    argText (p :: ps) = spacedText (([], p) :: ps.map (fun q => ([' '], q))) := by
  rw [argText_cons]; simp [spacedText]

theorem StrMap.set_of_not_mem (m : StrMap) (k v : Str) (h : k ∉ m.map Prod.fst) :
    StrMap.set m k v = m ++ [(k, v)] := by
  induction m with
  | nil => rfl
  | cons e m ih =>
    obtain ⟨k1, v1⟩ := e
    simp only [List.map_cons, List.mem_cons, not_or] at h
    have hne : ¬ k1 = k := fun e => h.1 e.symm
    simp [StrMap.set, hne, ih h.2]

theorem assignAll_of_nodup (ps : List (Str × Str)) :
    ∀ m : StrMap, (m.map Prod.fst ++ ps.map Prod.fst).Nodup → assignAll m ps = m ++ ps := by
  induction ps with
  | nil => intro m _; simp [assignAll]
  | cons p ps ih =>
    intro m h
    obtain ⟨k, v⟩ := p
    have hk : k ∉ m.map Prod.fst := by
      intro hmem
      have := List.nodup_append.mp h
      exact this.2.2 hmem (by simp)
    have h2 : ((m ++ [(k, v)]).map Prod.fst ++ ps.map Prod.fst).Nodup := by
      simpa using h
    have := ih (m ++ [(k, v)]) h2
    simp only [assignAll, List.foldl_cons] at this ⊢
    rw [StrMap.set_of_not_mem m k v hk, this]
    simp

theorem StrMap.get?_set (m : StrMap) (k v k2 : Str) :
    StrMap.get? (StrMap.set m k v) k2 = if k = k2 then some v else StrMap.get? m k2 := by
  induction m with
  | nil => simp [StrMap.set, StrMap.get?]
  | cons e m ih =>
    obtain ⟨k1, v1⟩ := e
    by_cases h1 : k1 = k
    · subst h1
      by_cases h2 : k1 = k2 <;> simp [StrMap.set, StrMap.get?, h2]
    · by_cases h2 : k1 = k2
      · subst h2
        have : ¬ k = k1 := fun e => h1 e.symm
        simp [StrMap.set, StrMap.get?, h1, this]
      · simp [StrMap.set, StrMap.get?, h1, h2, ih]

/-! ## Claims on `parse` -/

/-- C1. For pairs with pairwise distinct keys, each key non-empty, without `=` and
without leading or trailing white space, each value without a single quote, `parse`
applied to `k_1='v_1' k_2='v_2' ... k_n='v_n'` returns no error and exactly the
mapping of these pairs, each value verbatim. -/
theorem parse_argText (ps : List (Str × Str))
    (hkeys : ∀ p ∈ ps, ValidKey p.1) (hvals : ∀ p ∈ ps, quote ∉ p.2)
    (hdistinct : (ps.map Prod.fst).Nodup) :
    parse (argText ps) = some (ps, none) := by
  cases ps with
  | nil => rfl
  | cons p ps =>
    have h := parseLoop_spacedText (([], p) :: ps.map (fun q => ([' '], q))) []
      (argText (p :: ps)).length
      (by
        intro t ht
        simp only [List.mem_cons, List.mem_map] at ht
        rcases ht with rfl | ⟨q, hq, rfl⟩
        · exact ⟨by simp, hkeys p (by simp), hvals p (by simp)⟩
        · refine ⟨?_, hkeys q (by simp [hq]), hvals q (by simp [hq])⟩
          intro c hc
          simp only [List.mem_singleton] at hc
          subst hc
          decide)
      (by rw [argText_eq_spacedText])
    rw [← argText_eq_spacedText] at h
    unfold parse
    rw [h]
    have hmap : List.map Prod.snd (([], p) :: ps.map (fun q => (([' '] : Str), q))) = p :: ps := by
      simp [List.map_map, Function.comp_def]
    rw [hmap, assignAll_of_nodup (p :: ps) [] (by simpa using hdistinct)]
    simp

/-- Witness of C1 on `key1='v1' key2='v2'`. -/
theorem parse_argText_witness :
    argText [("key1".toList, "v1".toList), ("key2".toList, "v2".toList)]
        = "key1='v1' key2='v2'".toList
      ∧ parse (argText [("key1".toList, "v1".toList), ("key2".toList, "v2".toList)])
        = some ([("key1".toList, "v1".toList), ("key2".toList, "v2".toList)], none) :=
  ⟨by decide, parse_argText [("key1".toList, "v1".toList), ("key2".toList, "v2".toList)]
    (by decide) (by decide) (by decide)⟩

/-- C2. After a non-empty key without `=` and its `=`, a character `c` that is not
the single quote makes `parse` fail with the ExpectedOpenQuote error whose message
names `c`, whatever follows; and the end of the input right after `=` makes it fail
with the ExpectedOpenQuote error whose message says `got: EOF`. -/
theorem parse_expectedOpenQuote (k r : Str) (c : Char)
    (hne : k ≠ []) (hk : '=' ∉ k) (hc : c ≠ quote) :
    parse (k ++ '=' :: c :: r) = some ([], some (errExpectedOpenQuote c))
      ∧ parse (k ++ ['=']) = some ([], some errExpectedOpenQuoteEOF) := by
  cases k with
  | nil => exact absurd rfl hne
  | cons d x =>
    constructor
    · rw [List.cons_append, parse_cons, parseLoop_succ_cons, scanKey_eq d x (c :: r) hk]
      simp [scanValue, hc]
    · rw [List.cons_append, parse_cons, parseLoop_succ_cons, scanKey_eq d x [] hk]
      simp [scanValue]

/-- Witness of C2 on `key1=v1'` (the message names `v`) and on `key1=`. -/
theorem parse_expectedOpenQuote_witness :
    parse "key1=v1'".toList
        = some ([], some "want: single quote (') opening character, got: 'v'".toList)
      ∧ parse "key1=".toList
        = some ([], some "want: single quote (') opening character, got: EOF".toList) :=
  parse_expectedOpenQuote "key1".toList "1'".toList 'v' (by decide) (by decide) (by decide)

/-- C3. After a non-empty key without `=`, `=` and the opening quote, a text without
a single quote up to the end of the input makes `parse` fail with the
UnterminatedValue error. -/
theorem parse_unterminatedValue (k v : Str)
    (hne : k ≠ []) (hk : '=' ∉ k) (hv : quote ∉ v) :
    parse (k ++ '=' :: quote :: v) = some ([], some errUnterminatedValue) := by
  cases k with
  | nil => exact absurd rfl hne
  | cons d x =>
    rw [List.cons_append, parse_cons, parseLoop_succ_cons, scanKey_eq d x (quote :: v) hk]
    simp [scanValue, scanValueLoop_eof v hv]

/-- Witness of C3 on `key1='v1`. -/
theorem parse_unterminatedValue_witness :
    parse "key1='v1".toList
      = some ([], some "want: single quote (') closing character, got: EOF".toList) :=
  parse_unterminatedValue "key1".toList "v1".toList (by decide) (by decide) (by decide)

/-- C4 (the code at the failing input). On `='v1'` the `=` that `parse` has just
scanned becomes the first character of the key, so `scanKey` never sees an empty
key: it reads to the end of the input and `parse` returns the UnterminatedKey error
for the key fragment `='v1'`, not the EmptyKey error of line 114. -/
theorem parse_eq_first_not_emptyKey :
    parse "='v1'".toList
        = some ([], some "unexpcted EOF, no value for key '='v1''".toList)
      ∧ parse "='v1'".toList ≠ some ([], some errEmptyKeyAtEq)
      ∧ parse "='v1'".toList ≠ some ([], some errEmptyKey) := by
  have h : parse "='v1'".toList
      = some ([], some "unexpcted EOF, no value for key '='v1''".toList) := by decide
  refine ⟨h, ?_, ?_⟩ <;> rw [h] <;> decide

/-- C5. On a non-empty text `s` without `=`, `parse` fails with the UnterminatedKey
error, returns the empty mapping, and the message holds `s` itself, untrimmed, as
the key fragment. -/
theorem parse_unterminatedKey (s : Str) (hne : s ≠ []) (hs : '=' ∉ s) :
    parse s = some ([], some ("unexpcted EOF, no value for key '".toList ++ s ++ "'".toList)) := by
  cases s with
  | nil => exact absurd rfl hne
  | cons c x =>
    have hx : '=' ∉ x := fun h => hs (by simp [h])
    rw [parse_cons, parseLoop_succ_cons]
    unfold scanKey
    rw [scanKeyLoop_eof x hx [c] (by simp)]
    rfl

/-- Witness of C5 on ` key 1 ` (white space kept in the message). -/
theorem parse_unterminatedKey_witness :
    parse " key 1 ".toList
      = some ([], some "unexpcted EOF, no value for key ' key 1 '".toList) :=
  parse_unterminatedKey " key 1 ".toList (by decide) (by decide)

/-- C6. Last write wins: when `parse` succeeds on `s` with mapping `m`, then on
`s`, a space and the token `k='v'` (`k` non-empty, without `=`, without leading or
trailing white space; `v` without single quote) it returns no error and `m` with
`k` assigned `v`: the mapping that sends `k` to `v` and every other key to what `m`
sends it to. -/
theorem parse_append_token (s k v : Str) (m : StrMap)
    (hs : parse s = some (m, none)) (hk : ValidKey k) (hv : quote ∉ v) :
    parse (s ++ ' ' :: k ++ '=' :: quote :: v ++ [quote]) = some (StrMap.set m k v, none)
      ∧ ∀ k2 : Str, StrMap.get? (StrMap.set m k v) k2
          = if k = k2 then some v else StrMap.get? m k2 := by
  refine ⟨?_, StrMap.get?_set m k v⟩
  have htxt : s ++ ' ' :: k ++ '=' :: quote :: v ++ [quote]
      = s ++ ([' '] ++ token (k, v) ++ []) := by simp [token]
  rw [htxt]
  unfold parse at hs ⊢
  rw [parseLoop_append s.length [] s m hs _ _ (le_refl _)]
  have hlen : (s ++ ([' '] ++ token (k, v) ++ [])).length
      = (s.length + k.length + v.length + 3) + 1 := by
    simp [token]; omega
  rw [hlen, parseLoop_token _ m [' '] k v [] (by decide) hk hv]
  cases (s.length + k.length + v.length + 3) <;> rfl

/-- Witness of C6: `k='a' k='b'` yields exactly the mapping of `k` to `b`. -/
theorem parse_append_token_witness :
    parse "k='a' k='b'".toList = some ([("k".toList, "b".toList)], none) :=
  (parse_append_token "k='a'".toList "k".toList "b".toList [("k".toList, "a".toList)]
    (by decide) (by decide) (by decide)).1

/-! ## `strings.Join` and `strings.ReplaceAll` -/

theorem joinWith_cons (sep x : Str) (segs : List Str) (h : segs ≠ []) :
    joinWith sep (x :: segs) = x ++ sep ++ joinWith sep segs := by
  cases segs with
  | nil => exact absurd rfl h
  | cons y rest => rfl

theorem joinWith_cons_head (sep : Str) (c : Char) (x : Str) (segs : List Str) :
    joinWith sep ((c :: x) :: segs) = c :: joinWith sep (x :: segs) := by
  cases segs with
  | nil => rfl
  | cons y rest => simp [joinWith]

theorem head_isPrefix_joinWith (sep x : Str) (segs : List Str) :
    x <+: joinWith sep (x :: segs) := by
  cases segs with
  | nil => exact List.prefix_rfl
  | cons y rest =>
    simp only [joinWith, List.append_assoc]
    exact List.prefix_append _ _

theorem replaceFrom_nil (old new : Str) (n : Nat) : replaceFrom old new n [] = [] := by
  cases n <;> rfl

theorem replaceFrom_drop (old new : Str) :
    ∀ (n : Nat) (s : Str), replaceFrom old new n s = replaceFrom old new 0 (s.drop n) := by
  intro n
  induction n with
  | zero => intro s; rfl
  | succ n ih =>
    intro s
    cases s with
    | nil => simp [replaceFrom_nil]
    | cons c s => simp only [replaceFrom, List.drop_succ_cons]; exact ih s

/-- What `strings.ReplaceAll` does for a non-empty `old`: it cuts `s` at occurrences
of `old` into segments, `s` being the segments joined by `old`, and returns the same
segments joined by `new`.  No segment holds an occurrence of `old` (every occurrence
is replaced or overlaps a replaced one), and each cut is at the first occurrence of
`old` after the cut before it. -/
theorem replaceFrom_segments (old new : Str) (hold : old ≠ []) (n : Nat) :
    ∀ s : Str, s.length ≤ n →
      ∃ segs : List Str, segs ≠ [] ∧ joinWith old segs = s
        ∧ replaceFrom old new 0 s = joinWith new segs
        ∧ (∀ seg ∈ segs, ¬ old <:+: seg)
        ∧ (∀ seg ∈ segs.dropLast, ¬ old <:+: seg ++ old.dropLast) := by
  have hlen : 0 < old.length := List.length_pos.mpr hold
  have hshort : ¬ old <:+: old.dropLast := by
    intro h
    have := h.length_le
    simp only [List.length_dropLast] at this
    omega
  induction n with
  | zero =>
    intro s hs
    have : s = [] := List.eq_nil_of_length_eq_zero (Nat.le_zero.mp hs)
    subst this
    exact ⟨[[]], by simp, rfl, rfl, by simpa using hold, by simp⟩
  | succ n ih =>
    intro s hs
    cases s with
    | nil => exact ⟨[[]], by simp, rfl, rfl, by simpa using hold, by simp⟩
    | cons c s =>
      simp only [List.length_cons, Nat.add_le_add_iff_right] at hs
      by_cases hp : old.isPrefixOf (c :: s) = true
      · have hpre : old <+: c :: s := List.isPrefixOf_iff_prefix.mp hp
        have hsplit : old ++ (c :: s).drop old.length = c :: s :=
          List.prefix_iff_eq_append.mp hpre
        have hdrop : (c :: s).drop old.length = s.drop (old.length - 1) := by
          obtain ⟨k, hk⟩ : ∃ k, old.length = k + 1 := ⟨old.length - 1, by omega⟩
          rw [hk]; simp
        obtain ⟨segs, hne, hjoin, hrep, hfree, hfirst⟩ :=
          ih (s.drop (old.length - 1)) (by simp only [List.length_drop]; omega)
        refine ⟨[] :: segs, by simp, ?_, ?_, ?_, ?_⟩
        · rw [joinWith_cons old [] segs hne, hjoin, ← hdrop]
          simpa using hsplit
        · rw [joinWith_cons new [] segs hne, ← hrep]
          simp only [replaceFrom, hp, if_true, List.nil_append]
          rw [replaceFrom_drop old new (old.length - 1) s]
        · intro seg hseg
          rcases List.mem_cons.mp hseg with rfl | h
          · simpa using hold
          · exact hfree seg h
        · intro seg hseg
          rw [List.dropLast_cons_of_ne_nil hne] at hseg
          rcases List.mem_cons.mp hseg with rfl | h
          · simpa using hshort
          · exact hfirst seg h
      · have hnp : ¬ old <+: c :: s := fun h => hp (List.isPrefixOf_iff_prefix.mpr h)
        obtain ⟨segs, hne, hjoin, hrep, hfree, hfirst⟩ := ih s hs
        cases segs with
        | nil => exact absurd rfl hne
        | cons seg0 tl =>
          refine ⟨(c :: seg0) :: tl, by simp, ?_, ?_, ?_, ?_⟩
          · rw [joinWith_cons_head, hjoin]
          · rw [joinWith_cons_head, ← hrep]
            simp only [replaceFrom, hp]
            rfl
          · intro seg hseg
            rcases List.mem_cons.mp hseg with rfl | h
            · intro hin
              rcases List.infix_cons_iff.mp hin with h1 | h1
              · apply hnp
                refine h1.trans ((List.prefix_cons_inj c).mpr ?_)
                rw [← hjoin]
                exact head_isPrefix_joinWith old seg0 tl
              · exact hfree seg0 (by simp) h1
            · exact hfree seg (by simp [h])
          · intro seg hseg
            cases tl with
            | nil => simp at hseg
            | cons y tl2 =>
              rw [List.dropLast_cons_of_ne_nil (by simp)] at hseg
              have hfirst2 : ∀ seg ∈ seg0 :: (y :: tl2).dropLast,
                  ¬ old <:+: seg ++ old.dropLast := by
                intro seg hs2
                apply hfirst seg
                rw [List.dropLast_cons_of_ne_nil (by simp)]
                exact hs2
              rcases List.mem_cons.mp hseg with rfl | h
              · intro hin
                rw [List.cons_append] at hin
                rcases List.infix_cons_iff.mp hin with h1 | h1
                · apply hnp
                  refine h1.trans ((List.prefix_cons_inj c).mpr ?_)
                  rw [← hjoin, joinWith_cons old seg0 (y :: tl2) (by simp),
                    List.append_assoc]
                  exact (List.prefix_append_right_inj seg0).mpr
                    ((List.dropLast_prefix old).trans (List.prefix_append _ _))
                · exact hfirst2 seg0 (by simp) h1
              · exact hfirst2 seg (by simp [h])

theorem replaceAll_segments (s old new : Str) (hold : old ≠ []) :
    ∃ segs : List Str, IsSegmentation old segs s
      ∧ replaceAll s old new = joinWith new segs := by
  obtain ⟨segs, _, hjoin, hrep, hfree, hfirst⟩ :=
    replaceFrom_segments old new hold s.length s (le_refl _)
  exact ⟨segs, ⟨hjoin, hfree, hfirst⟩, by simp [replaceAll, hold, hrep]⟩

/-! ## `dockerBuildArgStringify` -/

theorem joinWith_nil_sep (segs : List Str) : joinWith [] segs = segs.flatten := by
  induction segs with
  | nil => rfl
  | cons x rest ih =>
    cases rest with
    | nil => simp [joinWith]
    | cons y rest2 =>
      rw [joinWith_cons [] x (y :: rest2) (by simp), ih]
      simp

theorem replaceAll_dquote (v : Str) :
    replaceAll v [dquote] [backslash, dquote] = escapeQuotes v := by
  have h : ∀ v : Str, replaceFrom [dquote] [backslash, dquote] 0 v = escapeQuotes v := by
    intro v
    induction v with
    | nil => rfl
    | cons c v ih =>
      by_cases hc : c = dquote
      · subst hc
        simp [replaceFrom, List.isPrefixOf, escapeQuotes] at ih ⊢
        exact ih
      · have hc2 : ¬ dquote = c := fun e => hc e.symm
        simp [replaceFrom, List.isPrefixOf, escapeQuotes, hc, hc2] at ih ⊢
        exact ih
  simp [replaceAll, h]

theorem escapeQuotes_of_not_mem (v : Str) (hv : dquote ∉ v) : escapeQuotes v = v := by
  induction v with
  | nil => rfl
  | cons c v ih =>
    have hc : c ≠ dquote := fun h => hv (by simp [h])
    have hv2 : dquote ∉ v := fun h => hv (by simp [h])
    have := ih hv2
    simp only [escapeQuotes, List.flatMap_cons, hc, if_false] at this ⊢
    rw [this]; rfl

theorem sprintfBuildArg_eq (e : Str × Str) :
    sprintfBuildArg e.1 (replaceAll e.2 [dquote] [backslash, dquote]) = buildArg e := by
  rw [replaceAll_dquote]
  simp [sprintfBuildArg, buildArg, dquote]

theorem foldl_append_singleton (f : Str × Str → Str) (entries : List (Str × Str)) :
    ∀ args : List Str,
      entries.foldl (fun args e => args ++ [f e]) args = args ++ entries.map f := by
  induction entries with
  | nil => intro args; simp
  | cons e entries ih => intro args; simp [ih]

theorem joinWith_replicate_nil (n : Nat) (fs : List Str) (hfs : fs ≠ []) :
    joinWith [' '] (List.replicate n [] ++ fs)
      = List.replicate n ' ' ++ joinWith [' '] fs := by
  induction n with
  | zero => simp
  | succ n ih =>
    rw [List.replicate_succ, List.cons_append,
      joinWith_cons [' '] [] _ (by simp [hfs]), ih]
    simp [List.replicate_succ]

theorem buildArg_head (e : Str × Str) : (buildArg e).head? = some '-' := by
  simp [buildArg]

theorem buildArg_getLast (e : Str × Str) : (buildArg e).getLast? = some dquote := by
  unfold buildArg
  rw [List.getLast?_append]
  rfl

theorem joinWith_buildArg_ends (entries : List (Str × Str)) (h : entries ≠ []) :
    (joinWith [' '] (entries.map buildArg)).head? = some '-'
      ∧ (joinWith [' '] (entries.map buildArg)).getLast? = some dquote := by
  induction entries with
  | nil => exact absurd rfl h
  | cons e rest ih =>
    cases rest with
    | nil => exact ⟨buildArg_head e, buildArg_getLast e⟩
    | cons e2 rest2 =>
      have ih2 := ih (by simp)
      simp only [List.map_cons] at ih2 ⊢
      rw [joinWith_cons [' '] (buildArg e) _ (by simp)]
      constructor
      · simp [List.head?_append, buildArg_head]
      · rw [List.getLast?_append, ih2.2]; rfl

/-- What `dockerBuildArgStringify` returns: the fragments of the entries, in the
order of iteration, with one space between two of them.  The empty strings the slice
starts with only add leading spaces, which `strings.TrimSpace` removes. -/
theorem dockerBuildArgStringify_eq (entries : List (Str × Str)) :
    dockerBuildArgStringify entries = joinWith [' '] (entries.map buildArg) := by
  unfold dockerBuildArgStringify
  simp only []
  rw [foldl_append_singleton]
  have hmap : entries.map
      (fun e => sprintfBuildArg e.1 (replaceAll e.2 [dquote] [backslash, dquote]))
      = entries.map buildArg := List.map_congr_left (fun e _ => sprintfBuildArg_eq e)
  rw [hmap]
  cases entries with
  | nil => rfl
  | cons e rest =>
    rw [joinWith_replicate_nil _ _ (by simp),
      trimSpace_space_append _ _ (by
        intro c hc
        rw [(List.mem_replicate.mp hc).2]
        decide)]
    obtain ⟨hh, hl⟩ := joinWith_buildArg_ends (e :: rest) (by simp)
    exact trimSpace_of_ends _ (by rw [hh]; decide) (by rw [hl]; decide)

theorem parse_token (k v : Str) (hk : ValidKey k) (hv : quote ∉ v) :
    parse (token (k, v)) = some ([(k, v)], none) := by
  have h := parseLoop_token (k.length + v.length + 2) [] [] k v []
    (by simp) hk hv
  have hlen : (token (k, v)).length = k.length + v.length + 2 + 1 := by
    simp [token]; omega
  unfold parse
  rw [hlen]
  simp only [List.nil_append, List.append_nil] at h
  rw [h]
  cases (k.length + v.length + 2) <;> rfl

/-! ## Claims on the renderer and on the pipeline -/

/-- C7. For a non-empty placeholder `p`, a key `k` (non-empty, without `=`, without
leading or trailing white space) and a value `v` without single quote, the pipeline
on the argument text `k='v'` cuts the template `t` at the occurrences of `p` (no
piece between two cuts holds an occurrence of `p`, each cut is at the first
occurrence after the one before) and returns the same pieces with
`--build-arg="k=v'"` in the place of every cut, `v'` being `v` with a backslash
before each double quote. -/
theorem run_single_token (order : StrMap → List (Str × Str))
    (horder : ∀ m, (order m).Perm m) (t p k v : Str)
    (hp : p ≠ []) (hk : ValidKey k) (hv : quote ∉ v) :
    ∃ segs : List Str, IsSegmentation p segs t
      ∧ run order t p (token (k, v)) = some (.ok (joinWith
          ("--build-arg=\"".toList ++ k ++ "=".toList ++ escapeQuotes v ++ "\"".toList)
          segs)) := by
  have hord : order [(k, v)] = [(k, v)] := List.perm_singleton.mp (horder _)
  obtain ⟨segs, hseg, hrep⟩ := replaceAll_segments t p (buildArg (k, v)) hp
  refine ⟨segs, hseg, ?_⟩
  simp only [run, parse_token k v hk hv, hord, dockerBuildArgStringify_eq, List.map_cons,
    List.map_nil, joinWith, hrep]
  rfl

/-- Witness of C7: template `docker build @@ -t x .`, placeholder `@@`, arguments
`version='1.0'`. -/
theorem run_single_token_witness :
    run id "docker build @@ -t x .".toList "@@".toList "version='1.0'".toList
        = some (.ok "docker build --build-arg=\"version=1.0\" -t x .".toList)
      ∧ ∃ segs : List Str, IsSegmentation "@@".toList segs "docker build @@ -t x .".toList
        ∧ run id "docker build @@ -t x .".toList "@@".toList
            (token ("version".toList, "1.0".toList))
          = some (.ok (joinWith ("--build-arg=\"".toList ++ "version".toList ++ "=".toList
              ++ escapeQuotes "1.0".toList ++ "\"".toList) segs)) :=
  ⟨by rfl, run_single_token id (fun m => List.Perm.refl m) "docker build @@ -t x .".toList
    "@@".toList "version".toList "1.0".toList (by decide) (by decide) (by decide)⟩

/-- C8. On the empty argument text `parse` returns the empty mapping and no error,
`dockerBuildArgStringify` of the empty mapping is the empty string, and the
pipeline, for a non-empty placeholder `p`, cuts the template at the occurrences of
`p` and returns the pieces one after the other, with nothing in the place of the
cuts and every other character kept. -/
theorem run_empty_args (order : StrMap → List (Str × Str))
    (horder : ∀ m, (order m).Perm m) (t p : Str) (hp : p ≠ []) :
    parse [] = some ([], none) ∧ dockerBuildArgStringify [] = []
      ∧ ∃ segs : List Str, IsSegmentation p segs t
          ∧ run order t p [] = some (.ok segs.flatten) := by
  have hord : order [] = [] := List.perm_nil.mp (horder _)
  obtain ⟨segs, hseg, hrep⟩ := replaceAll_segments t p [] hp
  refine ⟨rfl, rfl, segs, hseg, ?_⟩
  have hparse : parse [] = some ([], none) := rfl
  have hstr : dockerBuildArgStringify [] = [] := rfl
  simp only [run, hparse, hord, hstr, hrep, joinWith_nil_sep]

/-- Witness of C8: `cmd @@ -f` becomes `cmd  -f`, with two spaces. -/
theorem run_empty_args_witness :
    run id "cmd @@ -f".toList "@@".toList [] = some (.ok "cmd  -f".toList)
      ∧ (parse [] = some ([], none) ∧ dockerBuildArgStringify [] = []
        ∧ ∃ segs : List Str, IsSegmentation "@@".toList segs "cmd @@ -f".toList
            ∧ run id "cmd @@ -f".toList "@@".toList [] = some (.ok segs.flatten)) :=
  ⟨by rfl, run_empty_args id (fun m => List.Perm.refl m) "cmd @@ -f".toList "@@".toList
    (by decide)⟩

/-- C9. For a mapping with the one entry `k -> v`, any strings, the result of
`dockerBuildArgStringify` is exactly `--build-arg="k=v'"`: `k` unchanged, and `v'`
the value with a backslash inserted before every double quote and every other
character (a backslash too) left as it is. -/
theorem dockerBuildArgStringify_single (k v : Str) :
    dockerBuildArgStringify [(k, v)]
      = "--build-arg=\"".toList ++ k ++ "=".toList
          ++ v.flatMap (fun c => if c = '"' then ['\\', '"'] else [c]) ++ "\"".toList := by
  rw [dockerBuildArgStringify_eq]
  rfl

/-! ## The round trip through the trivial splitter -/

theorem dropWhile_ne_append (a : Char) (k y : Str) (h : a ∉ k) :
    (k ++ a :: y).dropWhile (fun c => c != a) = a :: y := by
  induction k with
  | nil => simp [List.dropWhile]
  | cons c k ih =>
    have hc : (c != a) = true := by
      simpa using (fun e : c = a => h (by simp [e]))
    have hk : a ∉ k := fun e => h (by simp [e])
    rw [List.cons_append, List.dropWhile_cons, if_pos hc, ih hk]

theorem takeWhile_ne_append (a : Char) (k y : Str) (h : a ∉ k) :
    (k ++ a :: y).takeWhile (fun c => c != a) = k := by
  induction k with
  | nil => simp [List.takeWhile]
  | cons c k ih =>
    have hc : (c != a) = true := by
      simpa using (fun e : c = a => h (by simp [e]))
    have hk : a ∉ k := fun e => h (by simp [e])
    rw [List.cons_append, List.takeWhile_cons, if_pos hc, ih hk]

theorem specReadBuildArg_buildArg (k v r : Str) (hk : '=' ∉ k) (hv : dquote ∉ v) :
    specReadBuildArg (buildArg (k, v) ++ r) = some ((k, v), r) := by
  have htxt : buildArg (k, v) ++ r
      = "--build-arg=\"".toList ++ (k ++ '=' :: (v ++ dquote :: r)) := by
    simp [buildArg, escapeQuotes_of_not_mem v hv, dquote]
  have hpre : "--build-arg=\"".toList.isPrefixOf
      ("--build-arg=\"".toList ++ (k ++ '=' :: (v ++ dquote :: r))) = true :=
    List.isPrefixOf_iff_prefix.mpr (List.prefix_append _ _)
  rw [htxt]
  unfold specReadBuildArg
  rw [if_pos hpre]
  simp only [List.drop_left, dropWhile_ne_append '=' k _ hk, takeWhile_ne_append '=' k _ hk,
    dropWhile_ne_append dquote v r hv, takeWhile_ne_append dquote v r hv]

theorem specSplitLoop_succ (fuel : Nat) (s : Str) (hs : s ≠ []) :
    specSplitLoop (fuel + 1) s =
      match specReadBuildArg s with
      | none => none
      | some (kv, []) => some [kv]
      | some (kv, d :: rest) =>
        if d = ' ' ∧ rest ≠ [] then (specSplitLoop fuel rest).map (fun kvs => kv :: kvs)
        else none := by
  cases s with
  | nil => exact absurd rfl hs
  | cons c s => rfl

theorem buildArg_ne_nil (e : Str × Str) : buildArg e ≠ [] := by
  simp [buildArg]

theorem joinWith_buildArg_ne_nil (entries : List (Str × Str)) (h : entries ≠ []) :
    joinWith [' '] (entries.map buildArg) ≠ [] := by
  intro hnil
  have := (joinWith_buildArg_ends entries h).1
  rw [hnil] at this
  simp at this

theorem specSplitLoop_joinWith (entries : List (Str × Str)) :
    ∀ fuel : Nat, entries.length ≤ fuel →
      (∀ e ∈ entries, '=' ∉ e.1) → (∀ e ∈ entries, dquote ∉ e.2) →
      specSplitLoop fuel (joinWith [' '] (entries.map buildArg)) = some entries := by
  induction entries with
  | nil => intro fuel _ _ _; cases fuel <;> rfl
  | cons e rest ih =>
    intro fuel hf hk hv
    cases fuel with
    | zero => simp at hf
    | succ fuel =>
      simp only [List.length_cons, Nat.add_le_add_iff_right] at hf
      rw [specSplitLoop_succ fuel _ (joinWith_buildArg_ne_nil (e :: rest) (by simp))]
      obtain ⟨k, v⟩ := e
      have hk1 : '=' ∉ k := hk (k, v) (by simp)
      have hv1 : dquote ∉ v := hv (k, v) (by simp)
      cases rest with
      | nil =>
        have := specReadBuildArg_buildArg k v [] hk1 hv1
        simp only [List.append_nil] at this
        simp only [List.map_cons, List.map_nil, joinWith, this]
      | cons e2 rest2 =>
        have hne := joinWith_buildArg_ne_nil (e2 :: rest2) (by simp)
        have hrec := ih fuel hf (fun e he => hk e (by simp [he]))
          (fun e he => hv e (by simp [he]))
        rw [List.map_cons, joinWith_cons [' '] _ _ (by simp), List.append_assoc,
          specReadBuildArg_buildArg k v _ hk1 hv1]
        simp only [List.singleton_append, true_and]
        rw [if_pos hne, hrec]
        rfl

theorem length_le_joinWith_buildArg (entries : List (Str × Str)) :
    entries.length ≤ (joinWith [' '] (entries.map buildArg)).length := by
  induction entries with
  | nil => simp
  | cons e rest ih =>
    cases rest with
    | nil =>
      have := List.length_pos.mpr (buildArg_ne_nil e)
      simpa [joinWith] using this
    | cons e2 rest2 =>
      rw [List.map_cons, joinWith_cons [' '] _ _ (by simp)]
      simp only [List.length_append, List.length_cons] at ih ⊢
      omega

/-- C10 at a failing input.  `parse` accepts `=a='c'` and returns the mapping of
`=a` to `c`, whose value has no double quote; it is rendered as `--build-arg="=a=c"`,
which the trivial splitter reads as the empty key with the value `a=c`. -/
theorem roundtrip_fails_on_eq_in_key :
    parse "=a='c'".toList = some ([("=a".toList, "c".toList)], none)
      ∧ (∀ e ∈ [("=a".toList, "c".toList)], dquote ∉ e.2)
      ∧ dockerBuildArgStringify [("=a".toList, "c".toList)] = "--build-arg=\"=a=c\"".toList
      ∧ specSplitBuildArgs (dockerBuildArgStringify [("=a".toList, "c".toList)])
          = some [([], "a=c".toList)]
      ∧ ¬ (∀ e, e ∈ [(([] : Str), "a=c".toList)] ↔ e ∈ [("=a".toList, "c".toList)]) := by
  refine ⟨by decide, by decide, by decide, by decide, ?_⟩
  intro h
  have := (h ([], "a=c".toList)).mp (by simp)
  simp at this

/-- C10, amended.  For every mapping `m` in which no key holds `=` and no value holds
a double quote, and every order `entries` in which its entries are iterated, the
trivial splitter applied to the result of `dockerBuildArgStringify` returns the
entries in that order, hence exactly the key -> value pairs of `m`. -/
theorem dockerBuildArgStringify_roundtrip (m entries : List (Str × Str))
    (horder : entries.Perm m) (hkeys : ∀ e ∈ m, '=' ∉ e.1) (hvals : ∀ e ∈ m, dquote ∉ e.2) :
    specSplitBuildArgs (dockerBuildArgStringify entries) = some entries
      ∧ ∀ e, e ∈ entries ↔ e ∈ m := by
  refine ⟨?_, fun e => horder.mem_iff⟩
  unfold specSplitBuildArgs
  rw [dockerBuildArgStringify_eq]
  exact specSplitLoop_joinWith entries _ (length_le_joinWith_buildArg entries)
    (fun e he => hkeys e (horder.mem_iff.mp he)) (fun e he => hvals e (horder.mem_iff.mp he))

/-- Witness of C10, amended: two entries iterated in the order opposite to the order
of insertion, one value with spaces, `=` and a backslash. -/
theorem dockerBuildArgStringify_roundtrip_witness :
    specSplitBuildArgs (dockerBuildArgStringify
        [("b".toList, " x=y \\ ".toList), ("a".toList, "1".toList)])
      = some [("b".toList, " x=y \\ ".toList), ("a".toList, "1".toList)]
      ∧ ∀ e, e ∈ [("b".toList, " x=y \\ ".toList), ("a".toList, "1".toList)]
          ↔ e ∈ [("a".toList, "1".toList), ("b".toList, " x=y \\ ".toList)] :=
  dockerBuildArgStringify_roundtrip
    [("a".toList, "1".toList), ("b".toList, " x=y \\ ".toList)]
    [("b".toList, " x=y \\ ".toList), ("a".toList, "1".toList)]
    (List.Perm.swap _ _ _) (by decide) (by decide)

/-! ## Errors and the mapping returned with them -/

theorem StrMap.set_ne_nil (m : StrMap) (k v : Str) : StrMap.set m k v ≠ [] := by
  cases m with
  | nil => simp [StrMap.set]
  | cons e m =>
    obtain ⟨k1, v1⟩ := e
    simp only [StrMap.set]
    split <;> simp

/-- The loop of `parse` never empties the map it was given. -/
theorem parseLoop_ne_nil (f : Nat) :
    ∀ (m0 : StrMap) (s : Str) (m : StrMap) (r : Option Str), m0 ≠ [] →
      parseLoop f m0 s = some (m, r) → m ≠ [] := by
  induction f with
  | zero =>
    intro m0 s m r h0 h
    cases s with
    | nil =>
      simp only [parseLoop, Option.some.injEq, Prod.mk.injEq] at h
      rw [← h.1]; exact h0
    | cons c rest => simp [parseLoop] at h
  | succ f ih =>
    intro m0 s m r h0 h
    cases s with
    | nil =>
      simp only [parseLoop, Option.some.injEq, Prod.mk.injEq] at h
      rw [← h.1]; exact h0
    | cons c rest =>
      rw [parseLoop_succ_cons] at h
      rcases hsk : scanKey c rest with ⟨_ | keyName, rest1⟩
      · rw [hsk] at h
        simp only [Option.some.injEq, Prod.mk.injEq] at h
        rw [← h.1]; exact h0
      · rw [hsk] at h
        simp only [] at h
        rcases hsv : scanValue rest1 with ⟨_ | value, rest2⟩
        · rw [hsv] at h
          simp only [Option.some.injEq, Prod.mk.injEq] at h
          rw [← h.1]; exact h0
        · rw [hsv] at h
          simp only [] at h
          exact ih _ rest2 m r (StrMap.set_ne_nil m0 keyName value) h

/-- A scan that fails before it has completed a pair fails in the same way whatever
map the loop starts with, and returns that map. -/
theorem parseLoop_first_error (f g : Nat) (m : StrMap) (t e : Str)
    (h : parseLoop f [] t = some ([], some e)) (hg : t.length ≤ g) :
    parseLoop g m t = some (m, some e) := by
  cases t with
  | nil => cases f <;> simp [parseLoop] at h
  | cons c rest =>
    cases f with
    | zero => simp [parseLoop] at h
    | succ f =>
      cases g with
      | zero => simp at hg
      | succ g =>
        rw [parseLoop_succ_cons] at h ⊢
        rcases hsk : scanKey c rest with ⟨_ | keyName, rest1⟩
        · rw [hsk] at h
          simp only [Option.some.injEq, Prod.mk.injEq, true_and] at h
          simp only [h]
        · rw [hsk] at h
          simp only [] at h ⊢
          rcases hsv : scanValue rest1 with ⟨_ | value, rest2⟩
          · rw [hsv] at h
            simp only [Option.some.injEq, Prod.mk.injEq, true_and] at h
            simp only [h]
          · rw [hsv] at h
            simp only [] at h
            exact absurd rfl
              (parseLoop_ne_nil f _ rest2 [] (some e) (StrMap.set_ne_nil [] keyName value) h)

/-- C11. An error ends the parse at once and the mapping built so far is returned
with it: when `parse` succeeds on `s` with mapping `m`, and fails on `t` with error
`e` before completing a pair (it returns the empty mapping with `e`), then on
`s ++ t` it returns the error `e` together with exactly `m`. -/
theorem parse_append_error (s t e : Str) (m : StrMap)
    (hs : parse s = some (m, none)) (ht : parse t = some ([], some e)) :
    parse (s ++ t) = some (m, some e) := by
  unfold parse at hs ht ⊢
  rw [parseLoop_append s.length [] s m hs t _ (le_refl _)]
  exact parseLoop_first_error t.length _ m t e ht (by simp)

/-- Witness of C11: `a='1' b=2` returns the mapping of `a` to `1` together with the
ExpectedOpenQuote error that names `2`. -/
theorem parse_append_error_witness :
    parse ("a='1'".toList ++ " b=2".toList)
      = some ([("a".toList, "1".toList)],
          some "want: single quote (') opening character, got: '2'".toList) :=
  parse_append_error "a='1'".toList " b=2".toList
    "want: single quote (') opening character, got: '2'".toList [("a".toList, "1".toList)]
    (by decide) (by decide)

/-! ## The keys and the values of the mapping -/

/-- C12 (the code at the failing input).  On ` ='v'` the key text is one space:
`scanKey` tests the length of the untrimmed text, which is 1, and then returns the
trimmed text, which is empty.  `parse` returns no error and a mapping whose only key
is the empty string. -/
theorem parse_space_key_gives_empty_key :
    parse " ='v'".toList = some ([([], "v".toList)], none)
      ∧ ¬ (∀ e ∈ [(([] : Str), "v".toList)], e.1 ≠ []) := by
  refine ⟨by decide, ?_⟩
  intro h
  exact h ([], "v".toList) (by simp) rfl

theorem scanValueLoop_no_quote (s : Str) :
    ∀ (acc v r : Str), scanValueLoop acc s = (.ok v, r) → quote ∉ acc → quote ∉ v := by
  induction s with
  | nil => intro acc v r h; simp [scanValueLoop] at h
  | cons c s ih =>
    intro acc v r h hacc
    simp only [scanValueLoop] at h
    split at h
    · simp only [Prod.mk.injEq, Except.ok.injEq] at h
      rw [← h.1]; exact hacc
    · rename_i hc
      refine ih _ v r h ?_
      simp only [List.mem_append, List.mem_singleton, not_or]
      exact ⟨hacc, fun e => hc e.symm⟩

theorem scanValue_no_quote (s v r : Str) (h : scanValue s = (.ok v, r)) : quote ∉ v := by
  cases s with
  | nil => simp [scanValue] at h
  | cons c s =>
    simp only [scanValue] at h
    split at h
    · simp at h
    · exact scanValueLoop_no_quote s [] v r h (by simp)

theorem StrMap.set_values (P : Str → Prop) (m : StrMap) (k v : Str)
    (hm : ∀ e ∈ m, P e.2) (hv : P v) : ∀ e ∈ StrMap.set m k v, P e.2 := by
  induction m with
  | nil =>
    intro e he
    simp only [StrMap.set, List.mem_singleton] at he
    rw [he]; exact hv
  | cons e0 m ih =>
    obtain ⟨k1, v1⟩ := e0
    intro e he
    simp only [StrMap.set] at he
    split at he
    · rcases List.mem_cons.mp he with rfl | h
      · exact hv
      · exact hm e (by simp [h])
    · rcases List.mem_cons.mp he with rfl | h
      · exact hm (k1, v1) (by simp)
      · exact ih (fun e he => hm e (by simp [he])) e h

theorem parseLoop_values_no_quote (f : Nat) :
    ∀ (m0 : StrMap) (s : Str) (m : StrMap) (r : Option Str),
      (∀ e ∈ m0, quote ∉ e.2) → parseLoop f m0 s = some (m, r) →
      ∀ e ∈ m, quote ∉ e.2 := by
  induction f with
  | zero =>
    intro m0 s m r h0 h
    cases s with
    | nil =>
      simp only [parseLoop, Option.some.injEq, Prod.mk.injEq] at h
      rw [← h.1]; exact h0
    | cons c rest => simp [parseLoop] at h
  | succ f ih =>
    intro m0 s m r h0 h
    cases s with
    | nil =>
      simp only [parseLoop, Option.some.injEq, Prod.mk.injEq] at h
      rw [← h.1]; exact h0
    | cons c rest =>
      rw [parseLoop_succ_cons] at h
      rcases hsk : scanKey c rest with ⟨_ | keyName, rest1⟩
      · rw [hsk] at h
        simp only [Option.some.injEq, Prod.mk.injEq] at h
        rw [← h.1]; exact h0
      · rw [hsk] at h
        simp only [] at h
        rcases hsv : scanValue rest1 with ⟨_ | value, rest2⟩
        · rw [hsv] at h
          simp only [Option.some.injEq, Prod.mk.injEq] at h
          rw [← h.1]; exact h0
        · rw [hsv] at h
          simp only [] at h
          exact ih _ rest2 m r
            (StrMap.set_values (fun v => quote ∉ v) m0 keyName value h0
              (scanValue_no_quote rest1 value rest2 hsv)) h

/-- C13. On every input text `parse` returns, with or without an error, and no value
of the mapping it returns holds a single quote. -/
theorem parse_values_no_quote (s : Str) :
    ∃ (m : StrMap) (r : Option Str), parse s = some (m, r) ∧ ∀ e ∈ m, quote ∉ e.2 := by
  obtain ⟨⟨m, r⟩, h⟩ := Option.isSome_iff_exists.mp (parseLoop_isSome s.length [] s (le_refl _))
  exact ⟨m, r, h, parseLoop_values_no_quote s.length [] s m r (by simp) h⟩

/-! ## The rendering of several entries -/

theorem joinWith_eq_intercalate (sep : Str) (xs : List Str) :
    joinWith sep xs = sep.intercalate xs := by
  induction xs with
  | nil => rfl
  | cons x rest ih =>
    cases rest with
    | nil => simp [joinWith, List.intercalate]
    | cons y rest2 =>
      rw [joinWith_cons sep x (y :: rest2) (by simp), ih]
      simp [List.intercalate, List.intersperse_cons_cons]

/-- C14. For a mapping with at least one entry, whatever the order `e_1 .. e_n` in
which its entries are iterated, `dockerBuildArgStringify` returns exactly the
fragments `--build-arg="k=v'"` of `e_1 .. e_n` with one space between two of them
(`v'` the value with a backslash before each double quote); the result begins and
ends with a character that is not white space, so the empty strings the slice starts
with leave nothing in it. -/
theorem dockerBuildArgStringify_fragments (entries : List (Str × Str))
    (hn : entries ≠ []) :
    dockerBuildArgStringify entries
        = [' '].intercalate (entries.map (fun e =>
            "--build-arg=\"".toList ++ e.1 ++ "=".toList
              ++ e.2.flatMap (fun c => if c = '"' then ['\\', '"'] else [c])
              ++ "\"".toList))
      ∧ ∃ first last : Char,
          (dockerBuildArgStringify entries).head? = some first
            ∧ (dockerBuildArgStringify entries).getLast? = some last
            ∧ isSpace first = false ∧ isSpace last = false := by
  have hfrag : (fun e : Str × Str =>
      "--build-arg=\"".toList ++ e.1 ++ "=".toList
        ++ e.2.flatMap (fun c => if c = '"' then ['\\', '"'] else [c])
        ++ "\"".toList) = buildArg := rfl
  rw [hfrag, dockerBuildArgStringify_eq, ← joinWith_eq_intercalate]
  obtain ⟨hh, hl⟩ := joinWith_buildArg_ends entries hn
  exact ⟨rfl, '-', dquote, hh, hl, by decide, by decide⟩

/-- Witness of C14: two entries, the second value with spaces at both ends and a
double quote. -/
theorem dockerBuildArgStringify_fragments_witness :
    dockerBuildArgStringify [("a".toList, "1".toList), ("b".toList, " \"2 ".toList)]
      = "--build-arg=\"a=1\" --build-arg=\"b= \\\"2 \"".toList :=
  (dockerBuildArgStringify_fragments
    [("a".toList, "1".toList), ("b".toList, " \"2 ".toList)] (by decide)).1

/-! ## White space around the tokens -/

/-- C15. White space between the tokens is not significant: for tokens `k='v'` (`k`
non-empty, without `=`, without leading or trailing white space; `v` without single
quote), each after a string of white space of any length, empty or not, `parse`
returns no error and the mapping it returns for the same tokens separated by single
spaces. -/
theorem parse_spacedText (ts : List (Str × Str × Str))
    (h : ∀ t ∈ ts, (∀ c ∈ t.1, isSpace c = true) ∧ ValidKey t.2.1 ∧ quote ∉ t.2.2) :
    parse (spacedText ts) = some (assignAll [] (ts.map Prod.snd), none)
      ∧ parse (argText (ts.map Prod.snd)) = some (assignAll [] (ts.map Prod.snd), none) := by
  constructor
  · exact parseLoop_spacedText ts [] _ h (le_refl _)
  · cases hps : ts.map Prod.snd with
    | nil => rfl
    | cons p ps =>
      have hmem : ∀ q ∈ p :: ps, ValidKey q.1 ∧ quote ∉ q.2 := by
        intro q hq
        rw [← hps] at hq
        obtain ⟨t, ht, rfl⟩ := List.mem_map.mp hq
        exact (h t ht).2
      have h2 := parseLoop_spacedText (([], p) :: ps.map (fun q => ([' '], q))) []
        (argText (p :: ps)).length
        (by
          intro t ht
          simp only [List.mem_cons, List.mem_map] at ht
          rcases ht with rfl | ⟨q, hq, rfl⟩
          · exact ⟨by simp, hmem p (by simp)⟩
          · refine ⟨?_, hmem q (by simp [hq])⟩
            intro c hc
            simp only [List.mem_singleton] at hc
            subst hc
            decide)
        (by rw [argText_eq_spacedText])
      rw [← argText_eq_spacedText] at h2
      unfold parse
      rw [h2]
      simp [List.map_map, Function.comp_def]

/-- Witness of C15: tabs, newlines and no space at all between three tokens, the
first key written twice. -/
theorem parse_spacedText_witness :
    parse " \ta='1'b='2'\n\n a='3'".toList
        = some ([("a".toList, "3".toList), ("b".toList, "2".toList)], none)
      ∧ parse "a='1' b='2' a='3'".toList
        = some ([("a".toList, "3".toList), ("b".toList, "2".toList)], none) :=
  parse_spacedText
    [(" \t".toList, "a".toList, "1".toList), ([], "b".toList, "2".toList),
      ("\n\n ".toList, "a".toList, "3".toList)]
    (by decide)

/-! ## White space at the end of the input -/

theorem scanKeyLoop_suffix (s : Str) :
    ∀ (acc key r : Str), scanKeyLoop acc s = (.ok key, r) → ∃ pre, s = pre ++ r := by
  induction s with
  | nil =>
    intro acc key r h
    simp only [scanKeyLoop] at h
    split at h <;> simp at h
  | cons c s ih =>
    intro acc key r h
    simp only [scanKeyLoop] at h
    split at h
    · simp at h
    · split at h
      · simp only [Prod.mk.injEq, Except.ok.injEq] at h
        exact ⟨[c], by simp [h.2]⟩
      · obtain ⟨pre, hpre⟩ := ih _ key r h
        exact ⟨c :: pre, by simp [hpre]⟩

theorem scanValueLoop_suffix (s : Str) :
    ∀ (acc v r : Str), scanValueLoop acc s = (.ok v, r) →
      ∃ pre, s = pre ++ quote :: r := by
  induction s with
  | nil => intro acc v r h; simp [scanValueLoop] at h
  | cons c s ih =>
    intro acc v r h
    simp only [scanValueLoop] at h
    split at h
    · rename_i hc
      simp only [Prod.mk.injEq, Except.ok.injEq] at h
      exact ⟨[], by simp [hc, h.2]⟩
    · obtain ⟨pre, hpre⟩ := ih _ v r h
      exact ⟨c :: pre, by simp [hpre]⟩

theorem scanValue_suffix (s v r : Str) (h : scanValue s = (.ok v, r)) :
    ∃ pre, s = pre ++ quote :: r := by
  cases s with
  | nil => simp [scanValue] at h
  | cons c s =>
    simp only [scanValue] at h
    split at h
    · simp at h
    · obtain ⟨pre, hpre⟩ := scanValueLoop_suffix s [] v r h
      exact ⟨c :: pre, by simp [hpre]⟩

theorem getLast?_append_quote (pre r : Str) (hr : r = [] ∨ r.getLast? = some quote) :
    (pre ++ quote :: r).getLast? = some quote := by
  rw [List.getLast?_append]
  cases r with
  | nil => rfl
  | cons d r2 =>
    rcases hr with h | h
    · simp at h
    · rw [List.getLast?_cons_cons, h]; rfl

/-- A text the loop of `parse` accepts is empty or ends with the quote that closes
its last value. -/
theorem parseLoop_ok_ends (f : Nat) :
    ∀ (m0 : StrMap) (s : Str) (m : StrMap), parseLoop f m0 s = some (m, none) →
      s = [] ∨ s.getLast? = some quote := by
  induction f with
  | zero =>
    intro m0 s m h
    cases s with
    | nil => exact Or.inl rfl
    | cons c rest => simp [parseLoop] at h
  | succ f ih =>
    intro m0 s m h
    cases s with
    | nil => exact Or.inl rfl
    | cons c rest =>
      right
      rw [parseLoop_succ_cons] at h
      rcases hsk : scanKey c rest with ⟨_ | keyName, rest1⟩
      · rw [hsk] at h; simp at h
      · rw [hsk] at h
        simp only [] at h
        rcases hsv : scanValue rest1 with ⟨_ | value, rest2⟩
        · rw [hsv] at h; simp at h
        · rw [hsv] at h
          simp only [] at h
          obtain ⟨pre1, h1⟩ := scanKeyLoop_suffix rest [c] keyName rest1 hsk
          obtain ⟨pre2, h2⟩ := scanValue_suffix rest1 value rest2 hsv
          have hs : c :: rest = (c :: pre1 ++ pre2) ++ quote :: rest2 := by
            rw [h1, h2]; simp
          rw [hs]
          exact getLast?_append_quote _ rest2 (ih _ rest2 m h)

/-- C16. Trailing white space is rejected: when `parse` succeeds on `s` with mapping
`m`, then on `s` followed by a non-empty string `w` of white space it fails with the
UnterminatedKey error whose message holds `w` as the key fragment, and returns `m`
unchanged; and `s` itself is empty or ends with a single quote. -/
theorem parse_trailing_space (s : Str) (m : StrMap) (hs : parse s = some (m, none)) :
    (∀ w : Str, w ≠ [] → (∀ c ∈ w, isSpace c = true) →
        parse (s ++ w)
          = some (m, some ("unexpcted EOF, no value for key '".toList ++ w ++ "'".toList)))
      ∧ (s = [] ∨ s.getLast? = some quote) := by
  refine ⟨?_, parseLoop_ok_ends s.length [] s m hs⟩
  intro w hne hw
  unfold parse at hs ⊢
  rw [parseLoop_append s.length [] s m hs w _ (le_refl _)]
  cases w with
  | nil => exact absurd rfl hne
  | cons c x =>
    have hx : '=' ∉ x :=
      not_mem_of_all_space x '=' (by decide) (fun d hd => hw d (by simp [hd]))
    have hlen : (s ++ c :: x).length = (s.length + x.length) + 1 := by
      simp only [List.length_append, List.length_cons]; omega
    rw [hlen, parseLoop_succ_cons]
    unfold scanKey
    rw [scanKeyLoop_eof x hx [c] (by simp)]
    rfl

/-- Witness of C16: `a='1'` followed by a space and a newline. -/
theorem parse_trailing_space_witness :
    parse ("a='1'".toList ++ " \n".toList)
        = some ([("a".toList, "1".toList)],
            some ("unexpcted EOF, no value for key '".toList ++ " \n".toList ++ "'".toList))
      ∧ ("a='1'".toList = [] ∨ "a='1'".toList.getLast? = some quote) :=
  ⟨(parse_trailing_space "a='1'".toList [("a".toList, "1".toList)] (by decide)).1
      " \n".toList (by decide) (by decide),
    (parse_trailing_space "a='1'".toList [("a".toList, "1".toList)] (by decide)).2⟩

/-! ## The errors `parse` can return -/

theorem scanKeyLoop_error_kind (s : Str) :
    ∀ (acc e r : Str), acc ≠ [] → scanKeyLoop acc s = (.error e, r) →
      ∃ frag : Str, frag ≠ [] ∧ e = errUnterminatedKey frag := by
  induction s with
  | nil =>
    intro acc e r hacc h
    have hl : acc.length ≠ 0 := by simpa using hacc
    simp only [scanKeyLoop, hl, if_false, Prod.mk.injEq, Except.error.injEq] at h
    exact ⟨acc, hacc, h.1.symm⟩
  | cons c s ih =>
    intro acc e r hacc h
    have hl : acc.length ≠ 0 := by simpa using hacc
    simp only [scanKeyLoop, hl, and_false, if_false] at h
    split at h
    · simp at h
    · exact ih _ e r (by simp) h

theorem scanValueLoop_error_kind (s : Str) :
    ∀ (acc e r : Str), scanValueLoop acc s = (.error e, r) → e = errUnterminatedValue := by
  induction s with
  | nil =>
    intro acc e r h
    simp only [scanValueLoop, Prod.mk.injEq, Except.error.injEq] at h
    exact h.1.symm
  | cons c s ih =>
    intro acc e r h
    simp only [scanValueLoop] at h
    split at h
    · simp at h
    · exact ih _ e r h

theorem scanValue_error_kind (s e r : Str) (h : scanValue s = (.error e, r)) :
    IsScanFailure e := by
  cases s with
  | nil =>
    simp only [scanValue, Prod.mk.injEq, Except.error.injEq] at h
    exact Or.inr (Or.inl h.1.symm)
  | cons c s =>
    simp only [scanValue] at h
    split at h
    · rename_i hc
      simp only [Prod.mk.injEq, Except.error.injEq] at h
      exact Or.inr (Or.inr (Or.inl ⟨c, hc, h.1.symm⟩))
    · exact Or.inr (Or.inr (Or.inr (scanValueLoop_error_kind s [] e r h)))

theorem parseLoop_error_kind (f : Nat) :
    ∀ (m0 : StrMap) (s : Str) (m : StrMap) (e : Str),
      parseLoop f m0 s = some (m, some e) → IsScanFailure e := by
  induction f with
  | zero =>
    intro m0 s m e h
    cases s <;> simp [parseLoop] at h
  | succ f ih =>
    intro m0 s m e h
    cases s with
    | nil => simp [parseLoop] at h
    | cons c rest =>
      rw [parseLoop_succ_cons] at h
      rcases hsk : scanKey c rest with ⟨e1 | keyName, rest1⟩
      · rw [hsk] at h
        simp only [Option.some.injEq, Prod.mk.injEq] at h
        rw [← h.2]
        exact Or.inl (scanKeyLoop_error_kind rest [c] e1 rest1 (by simp) hsk)
      · rw [hsk] at h
        simp only [] at h
        rcases hsv : scanValue rest1 with ⟨e2 | value, rest2⟩
        · rw [hsv] at h
          simp only [Option.some.injEq, Prod.mk.injEq] at h
          rw [← h.2]
          exact scanValue_error_kind rest1 e2 rest2 hsv
        · rw [hsv] at h
          simp only [] at h
          exact ih _ rest2 m e h

theorem IsScanFailure.head (e : Str) (h : IsScanFailure e) :
    e.head? = some 'u' ∨ e.head? = some 'w' := by
  rcases h with ⟨frag, _, rfl⟩ | rfl | ⟨c, _, rfl⟩ | rfl
  · left; rfl
  · right; rfl
  · right; rfl
  · right; rfl

/-- C17. The two branches of `scanKey` for a key of length 0 are not reached from
`parse`: on every input text `parse` returns, and the error it returns, when there
is one, is an UnterminatedKey error with a non-empty key fragment, an
ExpectedOpenQuote error or the UnterminatedValue error, never `invalid format,
reached '=' with key length of 0` and never `key length of 0`. -/
theorem parse_error_kinds (s : Str) :
    ∃ (m : StrMap) (r : Option Str), parse s = some (m, r)
      ∧ (∀ e : Str, r = some e → IsScanFailure e)
      ∧ r ≠ some "invalid format, reached '=' with key length of 0".toList
      ∧ r ≠ some "key length of 0".toList := by
  obtain ⟨⟨m, r⟩, h⟩ := Option.isSome_iff_exists.mp (parseLoop_isSome s.length [] s (le_refl _))
  have hkind : ∀ e : Str, r = some e → IsScanFailure e := by
    intro e he
    rw [he] at h
    exact parseLoop_error_kind s.length [] s m e h
  refine ⟨m, r, h, hkind, ?_, ?_⟩
  · intro he
    rcases (hkind _ he).head with h1 | h1 <;> exact absurd h1 (by decide)
  · intro he
    rcases (hkind _ he).head with h1 | h1 <;> exact absurd h1 (by decide)

/-! ## The definitions on concrete inputs -/

/-- Go `parse` returns on every input. -/
theorem parse_isSome (s : Str) : (parse s).isSome = true :=
  parseLoop_isSome s.length [] s (le_refl _)

theorem parse_white_space_in_key :
    parse " \t a b =' x '".toList = some ([("a b".toList, " x ".toList)], none) := by
  decide

theorem dockerBuildArgStringify_say_hi :
    dockerBuildArgStringify [("key".toList, "say \"hi\"".toList)]
      = "--build-arg=\"key=say \\\"hi\\\"\"".toList := by
  decide

theorem dockerBuildArgStringify_two_entries :
    dockerBuildArgStringify [("a".toList, "1".toList), ("b".toList, " 2 ".toList)]
      = "--build-arg=\"a=1\" --build-arg=\"b= 2 \"".toList := by
  decide

theorem replaceAll_overlapping :
    replaceAll "aaa".toList "aa".toList "b".toList = "ba".toList := by
  decide

theorem replaceAll_empty_old :
    replaceAll "ab".toList [] "-".toList = "-a-b-".toList := by
  decide

end ArgParse
